import Mathlib

/-
Verification of the open-addressing hash table in src/src/main.rs.

The Rust source is shallowly embedded below. Machine integers are modelled
as follows: `usize` values as `Nat` with wrapping arithmetic made explicit
(`% 2 ^ 64`), `i32` and `i16` values as `Int` with the Rust `as` casts made
explicit (`toI32`, `toI16`). A `Vec` is a `List`; an indexing operation that
would panic in Rust (out of bounds) is modelled by propagating an explicit
panic outcome. The conversions `usize -> i32` (`try_into().unwrap()` panics
above `i32::MAX`) and `i32 -> usize` (panics for negative values) are
modelled by the same explicit panic outcome. The mutual recursion between
`hashmap_put` and `hashmap_rehash` is unbounded in the source; it is
embedded with an explicit fuel parameter, `diverge` marking fuel exhaustion.
-/

namespace MyHashmap

def MAP_FULL : Int := -2
def MAP_MISSING : Int := -3
def MAP_OMEM : Int := -1
def MAP_OK : Int := 0
def INIT_CAP : Nat := 1024
def USIZE : Nat := 2 ^ 64

/-- Value of `n : usize` cast with `as i16` (truncate to 16 bits, reinterpret signed). -/
def toI16 (n : Nat) : Int :=
  if n % 2 ^ 16 < 2 ^ 15 then ((n % 2 ^ 16 : Nat) : Int)
  else ((n % 2 ^ 16 : Nat) : Int) - 2 ^ 16

/-- Value of `n : usize` cast with `as i32` (truncate to 32 bits, reinterpret signed). -/
def toI32 (n : Nat) : Int :=
  if n % 2 ^ 32 < 2 ^ 31 then ((n % 2 ^ 32 : Nat) : Int)
  else ((n % 2 ^ 32 : Nat) : Int) - 2 ^ 32

/-- Slot record: `struct HashMapElement<T> { key: i32, in_use: i32, data: Box<T> }`. -/
structure HashMapElement (T : Type) where
  key : Int
  in_use : Int
  data : T
  deriving DecidableEq

/-- Table record: `struct HashMapMap<T> { table_size: usize, size: i32, data: Box<Vec<HashMapElement<T>>> }`. -/
structure HashMapMap (T : Type) where
  table_size : Nat
  size : Int
  data : List (HashMapElement T)
  deriving DecidableEq

/-- Constructor `hashmap_new`: table of `INIT_CAP` default (empty) slots. `d0` is `T::default()`. -/
def hashmap_new (d0 : T) : HashMapMap T :=
  ⟨INIT_CAP, 0, List.replicate INIT_CAP ⟨0, 0, d0⟩⟩

/-- Hash function `hashmap_hash_int`: the Jenkins 32-bit mix followed by Knuth multiplicative step,
computed in wrapping `usize` (64-bit) arithmetic, reduced `% table_size`.
(For `table_size = 0` Rust would panic on the final `%`; every claim below is
about tables of positive capacity, where the embedding agrees with the source.) -/
def hashmap_hash_int (table_size : Nat) (key : Nat) : Nat :=
  let k1 := (key + (key <<< 12)) % USIZE
  let k2 := k1 ^^^ (k1 >>> 22)
  let k3 := (k2 + (k2 <<< 4)) % USIZE
  let k4 := k3 ^^^ (k3 >>> 9)
  let k5 := (k4 + (k4 <<< 10)) % USIZE
  let k6 := k5 ^^^ (k5 >>> 2)
  let k7 := (k6 + (k6 <<< 7)) % USIZE
  let k8 := k7 ^^^ (k7 >>> 12)
  let k9 := ((k8 >>> 3) * 2654435761) % USIZE
  k9 % table_size

/-- Outcome of a state-mutating call: `ok status newState`, a Rust panic,
or fuel exhaustion of the unbounded put/rehash recursion. -/
inductive PutRes (T : Type) where
  | ok (status : Int) (m : HashMapMap T)
  | panic
  | diverge
  deriving DecidableEq

/-- Outcome of `hashmap_get`: `Some value`, `None`, or a Rust panic. -/
inductive GetRes (T : Type) where
  | found (v : T)
  | absent
  | panic
  deriving DecidableEq

/-- Outcome of `hashmap_get_one`: the returned `Option` plus resulting state, or a panic. -/
inductive GetOneRes (T : Type) where
  | ok (r : Option T) (m : HashMapMap T)
  | panic
  deriving DecidableEq

/-- The scan loop of `hashmap_hash` (`for _ in 0..inside.table_size`).
Note the faithful `curr + 1 % m.table_size`: in Rust as in Lean `%` binds
tighter than `+`, so the index advances without wrapping. -/
def hashLoop (m : HashMapMap T) (key : Int) : Nat → Nat → Option Int
  | _curr, 0 => some MAP_FULL
  | curr, fuel + 1 =>
    match m.data.get? curr with
    | none => none
    | some e =>
      if e.in_use = 0 then some (toI16 curr)
      else if e.key = key ∧ e.in_use = 1 then some (toI16 curr)
      else hashLoop m key (curr + 1 % m.table_size) fuel

/-- Probe `hashmap_hash(inside, key: i32) -> i16`: full-table short-circuit, then linear scan
from the hashed index. `none` models the panics of `table_size.try_into::<i32>()`,
`key.try_into::<usize>()` and out-of-bounds indexing. -/
def hashmap_hash (m : HashMapMap T) (key : Int) : Option Int :=
  if 2 ^ 31 ≤ m.table_size then none
  else if m.size = (m.table_size : Int) then some MAP_FULL
  else if key < 0 then none
  else hashLoop m key (hashmap_hash_int m.table_size key.toNat) m.table_size

/-- The `for i in 0..old_size` re-insertion loop of `hashmap_rehash`,
parameterised by the put function it calls back into. -/
def rehashLoop (putf : HashMapMap T → Int → T → PutRes T)
    (old : List (HashMapElement T)) : HashMapMap T → Nat → Nat → PutRes T
  | m, _i, 0 => .ok MAP_OK m
  | m, i, rem + 1 =>
    match old.get? i with
    | none => .panic
    | some e =>
      match putf m e.key e.data with
      | .ok st m1 => if st = MAP_OK then rehashLoop putf old m1 (i + 1) rem else .ok st m1
      | .panic => .panic
      | .diverge => .diverge

/-- Body of `hashmap_rehash`: swap in a fresh vector of `2 * INIT_CAP` default
slots (note: the source doubles `INIT_CAP`, not the current capacity), double
`table_size`, zero `size`, then re-insert all `old_size` old slots. -/
def rehashAux (d0 : T) (putf : HashMapMap T → Int → T → PutRes T)
    (m : HashMapMap T) : PutRes T :=
  rehashLoop putf m.data
    ⟨2 * m.table_size, 0, List.replicate (2 * INIT_CAP) ⟨0, 0, d0⟩⟩ 0 m.table_size

/-- Insert `hashmap_put`, fuel-indexed. The `while index == MAP_FULL` loop becomes the
recursion on `fuel`; each iteration rehashes and re-probes. On a non-FULL index
the slot is overwritten and `size` is unconditionally incremented (as in the
source: `m.size += 1;` runs also when an existing key was matched). -/
def putAt (d0 : T) : Nat → HashMapMap T → Int → T → PutRes T
  | 0, _, _, _ => .diverge
  | fuel + 1, m, key, value =>
    match hashmap_hash m key with
    | none => .panic
    | some index =>
      if index = MAP_FULL then
        match rehashAux d0 (fun m2 k2 v2 => putAt d0 fuel m2 k2 v2) m with
        | .ok st m1 => if st = MAP_OMEM then .ok MAP_OMEM m1 else putAt d0 fuel m1 key value
        | .panic => .panic
        | .diverge => .diverge
      else if index < 0 then .panic
      else if index.toNat < m.data.length then
        .ok MAP_OK ⟨m.table_size, m.size + 1, m.data.set index.toNat ⟨key, 1, value⟩⟩
      else .panic

def hashmap_put (d0 : T) (fuel : Nat) (m : HashMapMap T) (key : Int) (value : T) : PutRes T :=
  putAt d0 fuel m key value

def hashmap_rehash (d0 : T) (fuel : Nat) (m : HashMapMap T) : PutRes T :=
  rehashAux d0 (fun m2 k2 v2 => putAt d0 fuel m2 k2 v2) m

/-- The scan loop of `hashmap_get`; here the step is the correctly
parenthesised `(curr + 1) % m.table_size` of the source. -/
def getLoop (m : HashMapMap T) (key32 : Int) : Nat → Nat → GetRes T
  | _curr, 0 => .absent
  | curr, fuel + 1 =>
    match m.data.get? curr with
    | none => .panic
    | some e =>
      if e.key = key32 ∧ e.in_use = 1 then .found e.data
      else getLoop m key32 ((curr + 1) % m.table_size) fuel

/-- Lookup `hashmap_get(m, key: usize) -> Option<T>`: the stored `i32` keys are compared
against `key as i32`. -/
def hashmap_get (m : HashMapMap T) (key : Nat) : GetRes T :=
  getLoop m (toI32 key) (hashmap_hash_int m.table_size key) m.table_size

/-- The `for i in 0..m.table_size` loop of `hashmap_get_one`. -/
def getOneLoop (m : HashMapMap T) (remove : Nat) : Nat → Nat → GetOneRes T
  | _i, 0 => .ok none m
  | i, fuel + 1 =>
    match m.data.get? i with
    | none => .panic
    | some e =>
      if e.in_use ≠ 0 then
        if remove ≠ 0 then
          .ok (some e.data) ⟨m.table_size, m.size - 1, m.data.set i ⟨e.key, 0, e.data⟩⟩
        else .ok (some e.data) m
      else getOneLoop m remove (i + 1) fuel

def hashmap_length (m : HashMapMap T) : Int := m.size

/-- Extraction `hashmap_get_one(m, remove: usize)`: first occupied slot in index order;
with `remove != 0` its occupancy flag is cleared and `size` decremented. -/
def hashmap_get_one (m : HashMapMap T) (remove : Nat) : GetOneRes T :=
  if hashmap_length m = 0 then .ok none m
  else getOneLoop m remove 0 m.table_size

/-- The scan loop of `hashmap_remove`; on a match the slot is blanked
(`in_use = 0`, `data = Box::default()`, `key = 0`) and `size` decremented. -/
def removeLoop (d0 : T) (m : HashMapMap T) (key32 : Int) : Nat → Nat → PutRes T
  | _curr, 0 => .ok MAP_MISSING m
  | curr, fuel + 1 =>
    match m.data.get? curr with
    | none => .panic
    | some e =>
      if e.key = key32 ∧ e.in_use = 1 then
        .ok MAP_OK ⟨m.table_size, m.size - 1, m.data.set curr ⟨0, 0, d0⟩⟩
      else removeLoop d0 m key32 ((curr + 1) % m.table_size) fuel

/-- Removal `hashmap_remove(m, key: usize) -> i16`: keys compared against `key as i32`. -/
def hashmap_remove (d0 : T) (m : HashMapMap T) (key : Nat) : PutRes T :=
  removeLoop d0 m (toI32 key) (hashmap_hash_int m.table_size key) m.table_size

/-- Number of occupied slots (slots whose `in_use` flag is set). -/
def countOccupied (l : List (HashMapElement T)) : Nat :=
  l.countP (fun e => decide (e.in_use ≠ 0))

/-- Status component of a put/rehash/remove outcome, when the call returned. -/
def statusOf : PutRes T → Option Int
  | .ok st _ => some st
  | _ => none

/-- State component of a put/rehash/remove outcome, when the call returned. -/
def stateOf : PutRes T → Option (HashMapMap T)
  | .ok _ m => some m
  | _ => none

/-- States whose backing vector is no longer than the capacity field, with
capacity at least the initial constant and backing length below `2 ^ 15`
(so the `as i16` cast of any in-bounds index is the identity). Every state
reachable from `hashmap_new` satisfies this: the backing length is only ever
`INIT_CAP` or `2 * INIT_CAP` and the capacity only ever doubles from `INIT_CAP`. -/
def Inv (m : HashMapMap T) : Prop :=
  m.data.length ≤ m.table_size ∧ m.data.length < 2 ^ 15 ∧ 1024 ≤ m.table_size

instance (m : HashMapMap T) : Decidable (Inv m) := by
  unfold Inv; infer_instance

theorem Inv_iff (m : HashMapMap T) :
    Inv m ↔ (m.data.length ≤ m.table_size ∧ m.data.length < 2 ^ 15 ∧ 1024 ≤ m.table_size) :=
  Iff.rfl

theorem toI16_small {n : Nat} (h : n < 2 ^ 15) : toI16 n = (n : Int) := by
  unfold toI16
  rw [Nat.mod_eq_of_lt (by omega)]
  rw [if_pos h]

theorem toI32_small {n : Nat} (h : n < 2 ^ 31) : toI32 n = (n : Int) := by
  unfold toI32
  rw [Nat.mod_eq_of_lt (by omega)]
  rw [if_pos h]

theorem toI32_congr {a b : Nat} (h : a % 2 ^ 32 = b % 2 ^ 32) : toI32 a = toI32 b := by
  unfold toI32
  rw [h]

theorem hashLoop_spec {T : Type} {m : HashMapMap T} {key : Int} :
    ∀ fuel curr idx, hashLoop m key curr fuel = some idx → idx ≠ MAP_FULL →
    m.data.length ≤ 2 ^ 15 → 2 ≤ m.table_size →
    ∃ c, curr ≤ c ∧ c < m.data.length ∧ idx = (c : Int) ∧
      (∀ t, curr ≤ t → t < c →
        ∃ e, m.data.get? t = some e ∧ e.in_use ≠ 0 ∧ ¬(e.key = key ∧ e.in_use = 1)) ∧
      (∃ e, m.data.get? c = some e ∧ (e.in_use = 0 ∨ (e.key = key ∧ e.in_use = 1))) := by
  intro fuel
  induction fuel with
  | zero =>
    intro curr idx h hne _ _
    simp only [hashLoop] at h
    cases h
    exact absurd rfl hne
  | succ fuel ih =>
    intro curr idx h hne hlen hts
    cases hget : m.data.get? curr with
    | none => simp only [hashLoop, hget] at h; cases h
    | some e =>
      simp only [hashLoop, hget] at h
      have hcur : curr < m.data.length := by
        rcases List.get?_eq_some.mp hget with ⟨hlt, _⟩
        exact hlt
      by_cases h0 : e.in_use = 0
      · rw [if_pos h0] at h
        cases h
        refine ⟨curr, le_refl _, hcur, ?_, ?_, ⟨e, hget, Or.inl h0⟩⟩
        · exact toI16_small (lt_of_lt_of_le hcur hlen)
        · intro t ht1 ht2; omega
      · rw [if_neg h0] at h
        by_cases h1 : e.key = key ∧ e.in_use = 1
        · rw [if_pos h1] at h
          cases h
          refine ⟨curr, le_refl _, hcur, ?_, ?_, ⟨e, hget, Or.inr h1⟩⟩
          · exact toI16_small (lt_of_lt_of_le hcur hlen)
          · intro t ht1 ht2; omega
        · rw [if_neg h1] at h
          rw [Nat.mod_eq_of_lt (by omega : 1 < m.table_size)] at h
          rcases ih (curr + 1) idx h hne hlen hts with
            ⟨c, hc1, hc2, hc3, hmid, hstop⟩
          refine ⟨c, by omega, hc2, hc3, ?_, hstop⟩
          intro t ht1 ht2
          by_cases hteq : t = curr
          · exact ⟨e, hteq ▸ hget, h0, h1⟩
          · exact hmid t (by omega) ht2

theorem hashmap_hash_spec {T : Type} {m : HashMapMap T} {key : Int} {idx : Int}
    (h : hashmap_hash m key = some idx) (hne : idx ≠ MAP_FULL)
    (hlen : m.data.length ≤ 2 ^ 15) (hts : 2 ≤ m.table_size) :
    0 ≤ key ∧
    ∃ c, hashmap_hash_int m.table_size key.toNat ≤ c ∧ c < m.data.length ∧ idx = (c : Int) ∧
      (∀ t, hashmap_hash_int m.table_size key.toNat ≤ t → t < c →
        ∃ e, m.data.get? t = some e ∧ e.in_use ≠ 0 ∧ ¬(e.key = key ∧ e.in_use = 1)) ∧
      (∃ e, m.data.get? c = some e ∧ (e.in_use = 0 ∨ (e.key = key ∧ e.in_use = 1))) := by
  unfold hashmap_hash at h
  by_cases hbig : 2 ^ 31 ≤ m.table_size
  · rw [if_pos hbig] at h
    cases h
  rw [if_neg hbig] at h
  by_cases hfull : m.size = (m.table_size : Int)
  · rw [if_pos hfull] at h
    cases h
    exact absurd rfl hne
  · rw [if_neg hfull] at h
    by_cases hkey : key < 0
    · rw [if_pos hkey] at h
      cases h
    · rw [if_neg hkey] at h
      exact ⟨by omega, hashLoop_spec _ _ _ h hne hlen hts⟩

theorem getLoop_finds {T : Type} {m : HashMapMap T} {key32 : Int} {c : Nat}
    {e : HashMapElement T}
    (hc : m.data.get? c = some e) (hm : e.key = key32 ∧ e.in_use = 1)
    (hlen : m.data.length ≤ m.table_size) :
    ∀ fuel curr, curr ≤ c → c - curr < fuel →
    (∀ t, curr ≤ t → t < c →
      ∃ e2, m.data.get? t = some e2 ∧ ¬(e2.key = key32 ∧ e2.in_use = 1)) →
    getLoop m key32 curr fuel = .found e.data := by
  have hclen : c < m.data.length := by
    rcases List.get?_eq_some.mp hc with ⟨hlt, _⟩
    exact hlt
  intro fuel
  induction fuel with
  | zero => intro curr h1 h2; omega
  | succ fuel ih =>
    intro curr h1 h2 hmid
    by_cases heq : curr = c
    · subst heq
      simp only [getLoop, hc, if_pos hm]
    · rcases hmid curr (le_refl _) (by omega) with ⟨e2, hg2, hnm⟩
      simp only [getLoop, hg2, if_neg hnm]
      rw [Nat.mod_eq_of_lt (by omega : curr + 1 < m.table_size)]
      exact ih (curr + 1) (by omega) (by omega) (fun t ht1 ht2 => hmid t (by omega) ht2)

theorem getLoop_none {T : Type} {m : HashMapMap T} {key32 : Int}
    (hlen : m.data.length = m.table_size) (hpos : 0 < m.table_size)
    (habs : ∀ t e, m.data.get? t = some e → ¬(e.key = key32 ∧ e.in_use = 1)) :
    ∀ fuel curr, curr < m.table_size → getLoop m key32 curr fuel = .absent := by
  intro fuel
  induction fuel with
  | zero => intro curr _; rfl
  | succ fuel ih =>
    intro curr hcur
    have hcl : curr < m.data.length := by omega
    have hget : m.data.get? curr = some (m.data.get ⟨curr, hcl⟩) :=
      List.get?_eq_some.mpr ⟨hcl, rfl⟩
    simp only [getLoop, hget, if_neg (habs _ _ hget)]
    exact ih _ (Nat.mod_lt _ hpos)

theorem step_to_index {n i curr : Nat} (hn : 0 < n) (hi : i < n) (hcur : curr < n) :
    ∃ d, d < n ∧ (curr + d) % n = i := by
  refine ⟨(n + i - curr) % n, Nat.mod_lt _ hn, ?_⟩
  rw [Nat.add_mod_mod, Nat.add_sub_cancel' (by omega : curr ≤ n + i)]
  rw [Nat.add_mod_left]
  exact Nat.mod_eq_of_lt hi

theorem getLoop_finds_cyc {T : Type} {m : HashMapMap T} {key32 : Int} {i : Nat}
    {e : HashMapElement T}
    (hlen : m.data.length = m.table_size)
    (hi : m.data.get? i = some e) (hm : e.key = key32 ∧ e.in_use = 1)
    (huniq : ∀ j e2, m.data.get? j = some e2 → e2.key = key32 ∧ e2.in_use = 1 → j = i) :
    ∀ fuel curr, curr < m.table_size →
    (∃ d, d < fuel ∧ (curr + d) % m.table_size = i) →
    getLoop m key32 curr fuel = .found e.data := by
  intro fuel
  induction fuel with
  | zero => intro curr _ hd; rcases hd with ⟨d, hd, _⟩; omega
  | succ fuel ih =>
    intro curr hcur hd
    rcases hd with ⟨d, hdlt, hdi⟩
    by_cases hceq : curr = i
    · subst hceq
      simp only [getLoop, hi, if_pos hm]
    · have hcl : curr < m.data.length := by omega
      have hget : m.data.get? curr = some (m.data.get ⟨curr, hcl⟩) :=
        List.get?_eq_some.mpr ⟨hcl, rfl⟩
      have hnm : ¬((m.data.get ⟨curr, hcl⟩).key = key32 ∧ (m.data.get ⟨curr, hcl⟩).in_use = 1) :=
        fun hmm => hceq (huniq _ _ hget hmm)
      simp only [getLoop, hget, if_neg hnm]
      have hdne : d ≠ 0 := by
        intro h0
        rw [h0, Nat.add_zero, Nat.mod_eq_of_lt hcur] at hdi
        exact hceq hdi
      refine ih _ (Nat.mod_lt _ (by omega)) ⟨d - 1, by omega, ?_⟩
      rw [Nat.mod_add_mod]
      rw [show curr + 1 + (d - 1) = curr + d by omega]
      exact hdi

theorem removeLoop_none {T : Type} {d0 : T} {m : HashMapMap T} {key32 : Int}
    (hlen : m.data.length = m.table_size) (hpos : 0 < m.table_size)
    (habs : ∀ t e, m.data.get? t = some e → ¬(e.key = key32 ∧ e.in_use = 1)) :
    ∀ fuel curr, curr < m.table_size → removeLoop d0 m key32 curr fuel = .ok MAP_MISSING m := by
  intro fuel
  induction fuel with
  | zero => intro curr _; rfl
  | succ fuel ih =>
    intro curr hcur
    have hcl : curr < m.data.length := by omega
    have hget : m.data.get? curr = some (m.data.get ⟨curr, hcl⟩) :=
      List.get?_eq_some.mpr ⟨hcl, rfl⟩
    simp only [removeLoop, hget, if_neg (habs _ _ hget)]
    exact ih _ (Nat.mod_lt _ hpos)

theorem removeLoop_finds_cyc {T : Type} {d0 : T} {m : HashMapMap T} {key32 : Int} {i : Nat}
    {e : HashMapElement T}
    (hlen : m.data.length = m.table_size)
    (hi : m.data.get? i = some e) (hm : e.key = key32 ∧ e.in_use = 1)
    (huniq : ∀ j e2, m.data.get? j = some e2 → e2.key = key32 ∧ e2.in_use = 1 → j = i) :
    ∀ fuel curr, curr < m.table_size →
    (∃ d, d < fuel ∧ (curr + d) % m.table_size = i) →
    removeLoop d0 m key32 curr fuel =
      .ok MAP_OK ⟨m.table_size, m.size - 1, m.data.set i ⟨0, 0, d0⟩⟩ := by
  intro fuel
  induction fuel with
  | zero => intro curr _ hd; rcases hd with ⟨d, hd, _⟩; omega
  | succ fuel ih =>
    intro curr hcur hd
    rcases hd with ⟨d, hdlt, hdi⟩
    by_cases hceq : curr = i
    · subst hceq
      simp only [removeLoop, hi, if_pos hm]
    · have hcl : curr < m.data.length := by omega
      have hget : m.data.get? curr = some (m.data.get ⟨curr, hcl⟩) :=
        List.get?_eq_some.mpr ⟨hcl, rfl⟩
      have hnm : ¬((m.data.get ⟨curr, hcl⟩).key = key32 ∧ (m.data.get ⟨curr, hcl⟩).in_use = 1) :=
        fun hmm => hceq (huniq _ _ hget hmm)
      simp only [removeLoop, hget, if_neg hnm]
      have hdne : d ≠ 0 := by
        intro h0
        rw [h0, Nat.add_zero, Nat.mod_eq_of_lt hcur] at hdi
        exact hceq hdi
      refine ih _ (Nat.mod_lt _ (by omega)) ⟨d - 1, by omega, ?_⟩
      rw [Nat.mod_add_mod]
      rw [show curr + 1 + (d - 1) = curr + d by omega]
      exact hdi

theorem getOneLoop_finds {T : Type} {m : HashMapMap T} {i : Nat} {e : HashMapElement T}
    (hi : m.data.get? i = some e) (hocc : e.in_use ≠ 0)
    (hfirst : ∀ t e2, t < i → m.data.get? t = some e2 → e2.in_use = 0) :
    ∀ fuel j, j ≤ i → i - j < fuel → ∀ rm,
    getOneLoop m rm j fuel =
      (if rm ≠ 0 then
        .ok (some e.data) ⟨m.table_size, m.size - 1, m.data.set i ⟨e.key, 0, e.data⟩⟩
      else .ok (some e.data) m) := by
  intro fuel
  induction fuel with
  | zero => intro j h1 h2; omega
  | succ fuel ih =>
    intro j h1 h2 rm
    by_cases heq : j = i
    · subst heq
      simp only [getOneLoop, hi, if_pos hocc]
    · have hjl : j < i := by omega
      have hj : j < m.data.length := by
        rcases List.get?_eq_some.mp hi with ⟨hlt, _⟩
        omega
      cases hget : m.data.get? j with
      | none =>
        rw [List.get?_eq_none] at hget
        omega
      | some e2 =>
        have hz : e2.in_use = 0 := hfirst _ _ hjl hget
        simp only [getOneLoop, hget]
        rw [if_neg (by simp [hz])]
        exact ih (j + 1) (by omega) (by omega) rm

theorem countOccupied_exists {T : Type} {l : List (HashMapElement T)}
    (h : countOccupied l ≠ 0) :
    ∃ n e, l.get? n = some e ∧ e.in_use ≠ 0 := by
  unfold countOccupied at h
  have hpos : 0 < l.countP (fun e => decide (e.in_use ≠ 0)) := Nat.pos_of_ne_zero h
  rcases List.countP_pos_iff.mp hpos with ⟨a, hmem, hp⟩
  rcases List.get?_of_mem hmem with ⟨n, hget⟩
  exact ⟨n, a, hget, of_decide_eq_true hp⟩

theorem rehashLoop_inv {T : Type} {putf : HashMapMap T → Int → T → PutRes T}
    (hputf : ∀ m k v st m', Inv m → putf m k v = .ok st m' → Inv m')
    (old : List (HashMapElement T)) :
    ∀ rem i m st m', Inv m → rehashLoop putf old m i rem = .ok st m' → Inv m' := by
  intro rem
  induction rem with
  | zero =>
    intro i m st m' hInv h
    simp only [rehashLoop] at h
    cases h
    exact hInv
  | succ rem ih =>
    intro i m st m' hInv h
    cases hget : old.get? i with
    | none => simp only [rehashLoop, hget] at h; cases h
    | some e =>
      simp only [rehashLoop, hget] at h
      cases hput : putf m e.key e.data with
      | ok st1 m1 =>
        simp only [hput] at h
        have hInv1 : Inv m1 := hputf _ _ _ _ _ hInv hput
        by_cases hst : st1 = MAP_OK
        · rw [if_pos hst] at h
          exact ih _ _ _ _ hInv1 h
        · rw [if_neg hst] at h
          cases h
          exact hInv1
      | panic => simp only [hput] at h; cases h
      | diverge => simp only [hput] at h; cases h

theorem putAt_inv {T : Type} (d0 : T) :
    ∀ fuel m key value st m', Inv m → putAt d0 fuel m key value = .ok st m' → Inv m' := by
  intro fuel
  induction fuel with
  | zero => intro m key value st m' _ h; simp only [putAt] at h; cases h
  | succ fuel ih =>
    intro m key value st m' hInv h
    cases hh : hashmap_hash m key with
    | none => simp only [putAt, hh] at h; cases h
    | some index =>
      simp only [putAt, hh] at h
      by_cases hfull : index = MAP_FULL
      · rw [if_pos hfull] at h
        cases hre : rehashAux d0 (fun m2 k2 v2 => putAt d0 fuel m2 k2 v2) m with
        | ok st1 m1 =>
          simp only [hre] at h
          have hInv1 : Inv m1 := by
            unfold rehashAux at hre
            refine rehashLoop_inv (fun mm kk vv sst mm' hI hp => ih mm kk vv sst mm' hI hp)
              _ _ _ _ _ _ ?_ hre
            rcases hInv with ⟨h1, h2, h3⟩
            rw [Inv_iff]
            simp only [List.length_replicate]
            unfold INIT_CAP
            omega
          by_cases hom : st1 = MAP_OMEM
          · rw [if_pos hom] at h
            cases h
            exact hInv1
          · rw [if_neg hom] at h
            exact ih _ _ _ _ _ hInv1 h
        | panic => simp only [hre] at h; cases h
        | diverge => simp only [hre] at h; cases h
      · rw [if_neg hfull] at h
        by_cases hneg : index < 0
        · rw [if_pos hneg] at h
          cases h
        · rw [if_neg hneg] at h
          by_cases hbound : index.toNat < m.data.length
          · rw [if_pos hbound] at h
            cases h
            rcases hInv with ⟨h1, h2, h3⟩
            rw [Inv_iff]
            simp only [List.length_set]
            omega
          · rw [if_neg hbound] at h
            cases h

theorem rehashLoop_status {T : Type} {putf : HashMapMap T → Int → T → PutRes T}
    (hputf : ∀ m k v st m', putf m k v = .ok st m' → st = MAP_OK ∨ st = MAP_OMEM)
    (old : List (HashMapElement T)) :
    ∀ rem i m st m', rehashLoop putf old m i rem = .ok st m' → st = MAP_OK ∨ st = MAP_OMEM := by
  intro rem
  induction rem with
  | zero =>
    intro i m st m' h
    simp only [rehashLoop] at h
    cases h
    exact Or.inl rfl
  | succ rem ih =>
    intro i m st m' h
    cases hget : old.get? i with
    | none => simp only [rehashLoop, hget] at h; cases h
    | some e =>
      simp only [rehashLoop, hget] at h
      cases hput : putf m e.key e.data with
      | ok st1 m1 =>
        simp only [hput] at h
        by_cases hst : st1 = MAP_OK
        · rw [if_pos hst] at h
          exact ih _ _ _ _ h
        · rw [if_neg hst] at h
          cases h
          exact hputf _ _ _ _ _ hput
      | panic => simp only [hput] at h; cases h
      | diverge => simp only [hput] at h; cases h

theorem putAt_status {T : Type} (d0 : T) :
    ∀ fuel m key value st m', putAt d0 fuel m key value = .ok st m' →
    st = MAP_OK ∨ st = MAP_OMEM := by
  intro fuel
  induction fuel with
  | zero => intro m key value st m' h; simp only [putAt] at h; cases h
  | succ fuel ih =>
    intro m key value st m' h
    cases hh : hashmap_hash m key with
    | none => simp only [putAt, hh] at h; cases h
    | some index =>
      simp only [putAt, hh] at h
      by_cases hfull : index = MAP_FULL
      · rw [if_pos hfull] at h
        cases hre : rehashAux d0 (fun m2 k2 v2 => putAt d0 fuel m2 k2 v2) m with
        | ok st1 m1 =>
          simp only [hre] at h
          by_cases hom : st1 = MAP_OMEM
          · rw [if_pos hom] at h
            cases h
            exact Or.inr rfl
          · rw [if_neg hom] at h
            exact ih _ _ _ _ _ h
        | panic => simp only [hre] at h; cases h
        | diverge => simp only [hre] at h; cases h
      · rw [if_neg hfull] at h
        by_cases hneg : index < 0
        · rw [if_pos hneg] at h
          cases h
        · rw [if_neg hneg] at h
          by_cases hbound : index.toNat < m.data.length
          · rw [if_pos hbound] at h
            cases h
            exact Or.inl rfl
          · rw [if_neg hbound] at h
            cases h

theorem putAt_get {T : Type} (d0 : T) (key : Int) (value : T) (hk : key < 2 ^ 31) :
    ∀ fuel m m', Inv m → putAt d0 fuel m key value = .ok MAP_OK m' →
    hashmap_get m' key.toNat = .found value := by
  intro fuel
  induction fuel with
  | zero => intro m m' _ h; simp only [putAt] at h; cases h
  | succ fuel ih =>
    intro m m' hInv h
    cases hh : hashmap_hash m key with
    | none => simp only [putAt, hh] at h; cases h
    | some index =>
      simp only [putAt, hh] at h
      by_cases hfull : index = MAP_FULL
      · rw [if_pos hfull] at h
        cases hre : rehashAux d0 (fun m2 k2 v2 => putAt d0 fuel m2 k2 v2) m with
        | ok st1 m1 =>
          simp only [hre] at h
          have hInv1 : Inv m1 := by
            unfold rehashAux at hre
            refine rehashLoop_inv
              (fun mm kk vv sst mm' hI hp => putAt_inv d0 fuel mm kk vv sst mm' hI hp)
              _ _ _ _ _ _ ?_ hre
            rcases hInv with ⟨h1, h2, h3⟩
            rw [Inv_iff]
            simp only [List.length_replicate]
            unfold INIT_CAP
            omega
          by_cases hom : st1 = MAP_OMEM
          · rw [if_pos hom] at h
            injection h with h1 h2
            exact absurd h1 (by decide)
          · rw [if_neg hom] at h
            exact ih m1 m' hInv1 h
        | panic => simp only [hre] at h; cases h
        | diverge => simp only [hre] at h; cases h
      · rw [if_neg hfull] at h
        by_cases hneg : index < 0
        · rw [if_pos hneg] at h
          cases h
        · rw [if_neg hneg] at h
          by_cases hbound : index.toNat < m.data.length
          · rw [if_pos hbound] at h
            injection h with h1 h2
            obtain ⟨hl1, hl2, hl3⟩ := hInv
            obtain ⟨hk0, c, hc0, hclen, hcidx, hmid, hstop⟩ :=
              hashmap_hash_spec hh hfull (le_of_lt hl2) (by omega)
            have hidxc : index.toNat = c := by
              rw [hcidx]
              exact Int.toNat_natCast c
            have hkey32 : toI32 key.toNat = key := by
              have hlt : key.toNat < 2 ^ 31 := by omega
              rw [toI32_small hlt]
              exact Int.toNat_of_nonneg hk0
            subst h2
            rw [hidxc]
            unfold hashmap_get
            have hlenset : (m.data.set c ⟨key, 1, value⟩).length = m.data.length :=
              List.length_set m.data c _
            refine getLoop_finds
              (m := ⟨m.table_size, m.size + 1, m.data.set c ⟨key, 1, value⟩⟩)
              (c := c) (e := ⟨key, 1, value⟩)
              ?_ ?_ ?_ m.table_size (hashmap_hash_int m.table_size key.toNat) hc0 (by omega) ?_
            · exact List.get?_set_eq_of_lt _ hclen
            · exact ⟨hkey32.symm, rfl⟩
            · simpa [hlenset] using hl1
            · intro t ht1 ht2
              rcases hmid t ht1 ht2 with ⟨e2, hg2, _, hnm2⟩
              refine ⟨e2, ?_, ?_⟩
              · rw [List.get?_set_ne _ _ (by omega : c ≠ t)]
                exact hg2
              · rw [hkey32]
                exact hnm2
          · rw [if_neg hbound] at h
            cases h

/-- Boolean test: slot `i` of `m` is occupied (`in_use == 1`) and stores `key32`.
This is the slot condition `hashmap_get`/`hashmap_remove` scan for. -/
def occMatchB (m : HashMapMap T) (key32 : Int) (i : Nat) : Bool :=
  match m.data.get? i with
  | some e => decide (e.key = key32) && decide (e.in_use = 1)
  | none => false

theorem occMatchB_iff {T : Type} {m : HashMapMap T} {key32 : Int} {i : Nat} :
    occMatchB m key32 i = true ↔
      ∃ e, m.data.get? i = some e ∧ e.key = key32 ∧ e.in_use = 1 := by
  unfold occMatchB
  cases hget : m.data.get? i with
  | none => simp
  | some e => simp

theorem occMatchB_false {T : Type} {m : HashMapMap T} {key32 : Int} {i : Nat}
    (h : occMatchB m key32 i = false) :
    ∀ e, m.data.get? i = some e → ¬(e.key = key32 ∧ e.in_use = 1) := by
  intro e hget hm
  have ht : occMatchB m key32 i = true := occMatchB_iff.mpr ⟨e, hget, hm.1, hm.2⟩
  rw [h] at ht
  cases ht

theorem hashmap_hash_int_lt (table_size key : Nat) (h : 0 < table_size) :
    hashmap_hash_int table_size key < table_size := by
  unfold hashmap_hash_int
  exact Nat.mod_lt _ h

/-- C5: on a table state (backing length = capacity, positive capacity) in which
key `k` is present in exactly one slot `i`, `hashmap_remove` returns `MAP_OK`,
blanks that slot to the all-default element (occupancy flag 0, key 0, default
value), decrements `size` by exactly one, and a subsequent `hashmap_get` of the
same key reports absence. -/
theorem remove_present_key {T : Type} (d0 : T) (m : HashMapMap T) (k : Nat) (i : Nat)
    (hlen : m.data.length = m.table_size) (hpos : 0 < m.table_size)
    (hocc : occMatchB m (toI32 k) i = true)
    (huniq : ∀ j, j < m.data.length → occMatchB m (toI32 k) j = true → j = i) :
    hashmap_remove d0 m k =
      .ok MAP_OK ⟨m.table_size, m.size - 1, m.data.set i ⟨0, 0, d0⟩⟩ ∧
    hashmap_get (⟨m.table_size, m.size - 1, m.data.set i ⟨0, 0, d0⟩⟩ : HashMapMap T) k =
      .absent := by
  rcases occMatchB_iff.mp hocc with ⟨e, he, hk1, hk2⟩
  have hilt : i < m.data.length := by
    rcases List.get?_eq_some.mp he with ⟨hl, _⟩
    exact hl
  have huniq2 : ∀ j e2, m.data.get? j = some e2 → e2.key = toI32 k ∧ e2.in_use = 1 → j = i := by
    intro j e2 hg hm2
    have hjl : j < m.data.length := by
      rcases List.get?_eq_some.mp hg with ⟨hl, _⟩
      exact hl
    exact huniq j hjl (occMatchB_iff.mpr ⟨e2, hg, hm2.1, hm2.2⟩)
  constructor
  · unfold hashmap_remove
    exact removeLoop_finds_cyc hlen he ⟨hk1, hk2⟩ huniq2 m.table_size _
      (hashmap_hash_int_lt _ _ hpos)
      (step_to_index hpos (by omega) (hashmap_hash_int_lt _ _ hpos))
  · unfold hashmap_get
    show getLoop (⟨m.table_size, m.size - 1, m.data.set i ⟨0, 0, d0⟩⟩ : HashMapMap T)
      (toI32 k) (hashmap_hash_int m.table_size k) m.table_size = .absent
    refine @getLoop_none T ⟨m.table_size, m.size - 1, m.data.set i ⟨0, 0, d0⟩⟩
      (toI32 k) ?_ hpos ?_ m.table_size _ (hashmap_hash_int_lt _ _ hpos)
    · show (m.data.set i ⟨0, 0, d0⟩).length = m.table_size
      rw [List.length_set]
      exact hlen
    · intro t e2 hg hm2
      by_cases hti : t = i
      · subst hti
        rw [List.get?_set_eq_of_lt _ hilt] at hg
        cases hg
        exact absurd hm2.2 (by simp)
      · rw [List.get?_set_ne _ _ (fun hh => hti hh.symm)] at hg
        exact hti (huniq2 t e2 hg hm2)

/-- C6: on a table state (backing length = capacity, positive capacity) in which
key `k` is absent from every slot, `hashmap_remove` returns `MAP_MISSING` and
the resulting state is literally the input state: `size`, `table_size` and the
whole slot sequence are unchanged. -/
theorem remove_absent_key {T : Type} (d0 : T) (m : HashMapMap T) (k : Nat)
    (hlen : m.data.length = m.table_size) (hpos : 0 < m.table_size)
    (habs : ∀ j, j < m.data.length → occMatchB m (toI32 k) j = false) :
    hashmap_remove d0 m k = .ok MAP_MISSING m := by
  unfold hashmap_remove
  apply removeLoop_none hlen hpos ?_ m.table_size _ (hashmap_hash_int_lt _ _ hpos)
  intro t e hg
  have htl : t < m.data.length := by
    rcases List.get?_eq_some.mp hg with ⟨hl, _⟩
    exact hl
  exact occMatchB_false (habs t htl) e hg

/-- C10: `hashmap_get` and `hashmap_remove` take a `usize` key and compare it to
the stored `i32` keys after truncation (`key as i32`), so on a table state
(backing length = capacity, positive capacity) whose matching slots for the
truncated key are unique, two keys congruent modulo `2 ^ 32` give an identical
lookup result and an identical remove result (same status, same final state). -/
theorem lookup_remove_agree_mod32 {T : Type} (d0 : T) (m : HashMapMap T) (k1 k2 : Nat)
    (hlen : m.data.length = m.table_size) (hpos : 0 < m.table_size)
    (hcong : k1 % 2 ^ 32 = k2 % 2 ^ 32)
    (huniq : ∀ i, i < m.data.length → occMatchB m (toI32 k1) i = true →
             ∀ j, j < m.data.length → occMatchB m (toI32 k1) j = true → i = j) :
    hashmap_get m k1 = hashmap_get m k2 ∧
    hashmap_remove d0 m k1 = hashmap_remove d0 m k2 := by
  have h32 : toI32 k1 = toI32 k2 := toI32_congr hcong
  by_cases hex : ∃ i, i < m.data.length ∧ occMatchB m (toI32 k1) i = true
  · rcases hex with ⟨i, hil, hocc⟩
    rcases occMatchB_iff.mp hocc with ⟨e, he, hk1e, hk2e⟩
    have huniq2 : ∀ j e2, m.data.get? j = some e2 → e2.key = toI32 k1 ∧ e2.in_use = 1 →
        j = i := by
      intro j e2 hg hm2
      have hjl : j < m.data.length := by
        rcases List.get?_eq_some.mp hg with ⟨hl, _⟩
        exact hl
      exact huniq j hjl (occMatchB_iff.mpr ⟨e2, hg, hm2.1, hm2.2⟩) i hil hocc
    constructor
    · unfold hashmap_get
      rw [getLoop_finds_cyc hlen he ⟨hk1e, hk2e⟩ huniq2 m.table_size _
        (hashmap_hash_int_lt _ _ hpos)
        (step_to_index hpos (by omega) (hashmap_hash_int_lt _ _ hpos))]
      rw [← h32]
      rw [getLoop_finds_cyc hlen he ⟨hk1e, hk2e⟩ huniq2 m.table_size _
        (hashmap_hash_int_lt _ _ hpos)
        (step_to_index hpos (by omega) (hashmap_hash_int_lt _ _ hpos))]
    · unfold hashmap_remove
      rw [removeLoop_finds_cyc hlen he ⟨hk1e, hk2e⟩ huniq2 m.table_size _
        (hashmap_hash_int_lt _ _ hpos)
        (step_to_index hpos (by omega) (hashmap_hash_int_lt _ _ hpos))]
      rw [← h32]
      rw [removeLoop_finds_cyc hlen he ⟨hk1e, hk2e⟩ huniq2 m.table_size _
        (hashmap_hash_int_lt _ _ hpos)
        (step_to_index hpos (by omega) (hashmap_hash_int_lt _ _ hpos))]
  · push_neg at hex
    have habs2 : ∀ t e2, m.data.get? t = some e2 → ¬(e2.key = toI32 k1 ∧ e2.in_use = 1) := by
      intro t e2 hg hm2
      have htl : t < m.data.length := by
        rcases List.get?_eq_some.mp hg with ⟨hl, _⟩
        exact hl
      have hb : occMatchB m (toI32 k1) t = true := occMatchB_iff.mpr ⟨e2, hg, hm2.1, hm2.2⟩
      exact absurd hb (by simpa using hex t htl)
    constructor
    · unfold hashmap_get
      rw [getLoop_none hlen hpos habs2 m.table_size _ (hashmap_hash_int_lt _ _ hpos)]
      rw [← h32]
      rw [getLoop_none hlen hpos habs2 m.table_size _ (hashmap_hash_int_lt _ _ hpos)]
    · unfold hashmap_remove
      rw [removeLoop_none hlen hpos habs2 m.table_size _ (hashmap_hash_int_lt _ _ hpos)]
      rw [← h32]
      rw [removeLoop_none hlen hpos habs2 m.table_size _ (hashmap_hash_int_lt _ _ hpos)]

/-- C7: on a consistent table state (backing length = capacity, `size` equal to
the number of occupied slots) `hashmap_get_one` returns no value exactly when
the table is empty; on a non-empty table it returns the value of the first
occupied slot `i`, and afterwards: with `remove = 0` the state is unchanged
(so a second identical call returns the same value), with `remove != 0` that
slot's occupancy flag is cleared and `size` drops by exactly one. -/
theorem extract_any_contract {T : Type} (m : HashMapMap T)
    (hlen : m.data.length = m.table_size)
    (hcount : m.size = (countOccupied m.data : Int)) :
    (m.size = 0 → ∀ rm, hashmap_get_one m rm = .ok none m) ∧
    (m.size ≠ 0 → ∃ i e, m.data.get? i = some e ∧ e.in_use ≠ 0 ∧
      (∀ t e2, t < i → m.data.get? t = some e2 → e2.in_use = 0) ∧
      hashmap_get_one m 0 = .ok (some e.data) m ∧
      hashmap_get_one m 1 =
        .ok (some e.data) ⟨m.table_size, m.size - 1, m.data.set i ⟨e.key, 0, e.data⟩⟩) := by
  constructor
  · intro hz rm
    unfold hashmap_get_one hashmap_length
    rw [if_pos hz]
  · intro hnz
    have hc0 : countOccupied m.data ≠ 0 := by
      intro hq
      rw [hq] at hcount
      exact hnz (by exact_mod_cast hcount)
    rcases countOccupied_exists hc0 with ⟨n, e0, hg0, ho0⟩
    have hex : ∃ j, ∃ e2, m.data.get? j = some e2 ∧ e2.in_use ≠ 0 := ⟨n, e0, hg0, ho0⟩
    classical
    obtain ⟨e, hge, hocce⟩ := Nat.find_spec hex
    have hfirst : ∀ t e2, t < Nat.find hex → m.data.get? t = some e2 → e2.in_use = 0 := by
      intro t e2 ht hgt
      by_contra hne0
      exact Nat.find_min hex ht ⟨e2, hgt, hne0⟩
    have hilen : Nat.find hex < m.data.length := by
      rcases List.get?_eq_some.mp hge with ⟨hl, _⟩
      exact hl
    have hloop := getOneLoop_finds hge hocce hfirst m.table_size 0 (Nat.zero_le _) (by omega)
    refine ⟨Nat.find hex, e, hge, hocce, hfirst, ?_, ?_⟩
    · have h0 := hloop 0
      rw [if_neg (by simp)] at h0
      unfold hashmap_get_one hashmap_length
      rw [if_neg hnz]
      exact h0
    · have h1 := hloop 1
      rw [if_pos (by simp)] at h1
      unfold hashmap_get_one hashmap_length
      rw [if_neg hnz]
      exact h1

/-- C8: whenever the `size` field equals `table_size` (and the capacity fits in
an `i32` so the comparison itself does not panic), `hashmap_hash` short-circuits
to `MAP_FULL` before reading any slot; and `hashmap_put` never returns the
`MAP_FULL` status to its caller — any probe result of `MAP_FULL` is consumed
internally by rehashing and re-probing. -/
theorem probe_full_shortcircuit_and_put_never_full {T : Type} (d0 : T) (m : HashMapMap T)
    (k : Int) (v : T) (fuel : Nat)
    (hts : m.table_size < 2 ^ 31) (hfull : m.size = (m.table_size : Int)) :
    hashmap_hash m k = some MAP_FULL ∧
    statusOf (hashmap_put d0 fuel m k v) ≠ some MAP_FULL := by
  constructor
  · unfold hashmap_hash
    rw [if_neg (by omega), if_pos hfull]
  · unfold hashmap_put
    cases hput : putAt d0 fuel m k v with
    | ok st m1 =>
      rcases putAt_status d0 fuel m k v st m1 hput with h | h <;> subst h <;>
        simp [statusOf, MAP_OK, MAP_OMEM, MAP_FULL]
    | panic => simp [statusOf]
    | diverge => simp [statusOf]

/-- C4: if `hashmap_put` returns `MAP_OK` on a state satisfying `Inv` (backing
length at most the capacity and below `2 ^ 15`, capacity at least the initial
1024 — true of every state reachable from `hashmap_new`), then an immediately
following `hashmap_get` of the same key (an `i32` key value, looked up as the
corresponding `usize`) returns exactly the value just inserted. -/
theorem insert_then_lookup {T : Type} (d0 : T) (fuel : Nat) (m m' : HashMapMap T)
    (key : Int) (value : T) (hInv : Inv m) (hk : key < 2 ^ 31)
    (hok : hashmap_put d0 fuel m key value = .ok MAP_OK m') :
    hashmap_get m' key.toNat = .found value :=
  putAt_get d0 key value hk fuel m m' hInv hok

set_option maxRecDepth 100000 in
/-- C4, witness: on a concrete `Inv` state, inserting key 5 with value 44 returns
`MAP_OK` and the subsequent lookup returns 44 (`hashmap_hash_int 1024 5 = 857`). -/
theorem insert_then_lookup_witness :
    hashmap_get
      (⟨1024, 1, (List.replicate 858 (⟨0, 0, 0⟩ : HashMapElement Int)).set 857 ⟨5, 1, 44⟩⟩ :
        HashMapMap Int) (5 : Int).toNat = .found 44 :=
  insert_then_lookup 0 1 ⟨1024, 0, List.replicate 858 ⟨0, 0, 0⟩⟩
    ⟨1024, 1, (List.replicate 858 ⟨0, 0, 0⟩).set 857 ⟨5, 1, 44⟩⟩ 5 44
    (by decide) (by decide) (by decide)

/-- C5, witness: key 5 is present exactly once (slot 2) in a 4-slot table;
removing it succeeds, blanks the slot, drops `size` from 1 to 0, and the
following lookup of key 5 is absent. -/
theorem remove_present_key_witness :
    hashmap_remove (0 : Int) ⟨4, 1, [⟨0, 0, 0⟩, ⟨0, 0, 0⟩, ⟨5, 1, 9⟩, ⟨0, 0, 0⟩]⟩ 5 =
      .ok MAP_OK ⟨4, 0, [⟨0, 0, 0⟩, ⟨0, 0, 0⟩, ⟨0, 0, 0⟩, ⟨0, 0, 0⟩]⟩ ∧
    hashmap_get (⟨4, 0, [⟨0, 0, 0⟩, ⟨0, 0, 0⟩, ⟨0, 0, 0⟩, ⟨0, 0, 0⟩]⟩ : HashMapMap Int) 5 =
      .absent :=
  remove_present_key 0 ⟨4, 1, [⟨0, 0, 0⟩, ⟨0, 0, 0⟩, ⟨5, 1, 9⟩, ⟨0, 0, 0⟩]⟩ 5 2
    (by decide) (by decide) (by decide) (by decide)

/-- C6, witness: key 6 is absent from a 4-slot table holding only key 5;
removing it returns `MAP_MISSING` with the state unchanged. -/
theorem remove_absent_key_witness :
    hashmap_remove (0 : Int) ⟨4, 1, [⟨0, 0, 0⟩, ⟨0, 0, 0⟩, ⟨5, 1, 9⟩, ⟨0, 0, 0⟩]⟩ 6 =
      .ok MAP_MISSING ⟨4, 1, [⟨0, 0, 0⟩, ⟨0, 0, 0⟩, ⟨5, 1, 9⟩, ⟨0, 0, 0⟩]⟩ :=
  remove_absent_key 0 ⟨4, 1, [⟨0, 0, 0⟩, ⟨0, 0, 0⟩, ⟨5, 1, 9⟩, ⟨0, 0, 0⟩]⟩ 6
    (by decide) (by decide) (by decide)

/-- C7, witness: a consistent 4-slot table with two occupied slots (first at
index 1, value 7): instantiation of the `hashmap_get_one` contract. -/
theorem extract_any_contract_witness :
    ((⟨4, 2, [⟨0, 0, 0⟩, ⟨3, 1, 7⟩, ⟨4, 1, 8⟩, ⟨0, 0, 0⟩]⟩ : HashMapMap Int).size = 0 →
      ∀ rm, hashmap_get_one (⟨4, 2, [⟨0, 0, 0⟩, ⟨3, 1, 7⟩, ⟨4, 1, 8⟩, ⟨0, 0, 0⟩]⟩ :
        HashMapMap Int) rm =
        .ok none ⟨4, 2, [⟨0, 0, 0⟩, ⟨3, 1, 7⟩, ⟨4, 1, 8⟩, ⟨0, 0, 0⟩]⟩) ∧
    ((⟨4, 2, [⟨0, 0, 0⟩, ⟨3, 1, 7⟩, ⟨4, 1, 8⟩, ⟨0, 0, 0⟩]⟩ : HashMapMap Int).size ≠ 0 →
      ∃ i e, (⟨4, 2, [⟨0, 0, 0⟩, ⟨3, 1, 7⟩, ⟨4, 1, 8⟩, ⟨0, 0, 0⟩]⟩ :
          HashMapMap Int).data.get? i = some e ∧ e.in_use ≠ 0 ∧
        (∀ t e2, t < i → (⟨4, 2, [⟨0, 0, 0⟩, ⟨3, 1, 7⟩, ⟨4, 1, 8⟩, ⟨0, 0, 0⟩]⟩ :
          HashMapMap Int).data.get? t = some e2 → e2.in_use = 0) ∧
        hashmap_get_one (⟨4, 2, [⟨0, 0, 0⟩, ⟨3, 1, 7⟩, ⟨4, 1, 8⟩, ⟨0, 0, 0⟩]⟩ :
          HashMapMap Int) 0 =
          .ok (some e.data) ⟨4, 2, [⟨0, 0, 0⟩, ⟨3, 1, 7⟩, ⟨4, 1, 8⟩, ⟨0, 0, 0⟩]⟩ ∧
        hashmap_get_one (⟨4, 2, [⟨0, 0, 0⟩, ⟨3, 1, 7⟩, ⟨4, 1, 8⟩, ⟨0, 0, 0⟩]⟩ :
          HashMapMap Int) 1 =
          .ok (some e.data)
            ⟨(⟨4, 2, [⟨0, 0, 0⟩, ⟨3, 1, 7⟩, ⟨4, 1, 8⟩, ⟨0, 0, 0⟩]⟩ :
                HashMapMap Int).table_size,
             (⟨4, 2, [⟨0, 0, 0⟩, ⟨3, 1, 7⟩, ⟨4, 1, 8⟩, ⟨0, 0, 0⟩]⟩ :
                HashMapMap Int).size - 1,
             (⟨4, 2, [⟨0, 0, 0⟩, ⟨3, 1, 7⟩, ⟨4, 1, 8⟩, ⟨0, 0, 0⟩]⟩ :
                HashMapMap Int).data.set i ⟨e.key, 0, e.data⟩⟩) :=
  extract_any_contract ⟨4, 2, [⟨0, 0, 0⟩, ⟨3, 1, 7⟩, ⟨4, 1, 8⟩, ⟨0, 0, 0⟩]⟩
    (by decide) (by decide)

/-- C8, witness: a full 4-slot table (`size = table_size = 4`): the probe
reports `MAP_FULL` immediately, and a 2-fuel insert of key 9 does not surface
`MAP_FULL` (it rehashes internally and returns `MAP_OK`). -/
theorem probe_full_shortcircuit_and_put_never_full_witness :
    hashmap_hash (⟨4, 4, [⟨1, 1, 10⟩, ⟨2, 1, 20⟩, ⟨3, 1, 30⟩, ⟨4, 1, 40⟩]⟩ :
      HashMapMap Int) 9 = some MAP_FULL ∧
    statusOf (hashmap_put (0 : Int) 2 ⟨4, 4, [⟨1, 1, 10⟩, ⟨2, 1, 20⟩, ⟨3, 1, 30⟩, ⟨4, 1, 40⟩]⟩
      9 77) ≠ some MAP_FULL :=
  probe_full_shortcircuit_and_put_never_full 0
    ⟨4, 4, [⟨1, 1, 10⟩, ⟨2, 1, 20⟩, ⟨3, 1, 30⟩, ⟨4, 1, 40⟩]⟩ 9 77 2
    (by decide) (by decide)

/-- C10, witness: keys 5 and 5 + 2^32 = 4294967301 agree modulo 2^32; on a table
holding key 5 once, lookup and remove give identical results for both. -/
theorem lookup_remove_agree_mod32_witness :
    hashmap_get (⟨4, 1, [⟨0, 0, 0⟩, ⟨5, 1, 9⟩, ⟨0, 0, 0⟩, ⟨0, 0, 0⟩]⟩ : HashMapMap Int) 5 =
      hashmap_get ⟨4, 1, [⟨0, 0, 0⟩, ⟨5, 1, 9⟩, ⟨0, 0, 0⟩, ⟨0, 0, 0⟩]⟩ 4294967301 ∧
    hashmap_remove (0 : Int) ⟨4, 1, [⟨0, 0, 0⟩, ⟨5, 1, 9⟩, ⟨0, 0, 0⟩, ⟨0, 0, 0⟩]⟩ 5 =
      hashmap_remove 0 ⟨4, 1, [⟨0, 0, 0⟩, ⟨5, 1, 9⟩, ⟨0, 0, 0⟩, ⟨0, 0, 0⟩]⟩ 4294967301 :=
  lookup_remove_agree_mod32 0 ⟨4, 1, [⟨0, 0, 0⟩, ⟨5, 1, 9⟩, ⟨0, 0, 0⟩, ⟨0, 0, 0⟩]⟩
    5 4294967301 (by decide) (by decide) (by decide) (by decide)

/-- C1: counterexample — the claim says overwriting an existing key leaves
`len()` unchanged (count incremented only for a previously Empty slot). In the
code `m.size += 1;` is unconditional: on a valid 4-slot table holding key 1
(value 40, one occupied slot, `size = 1`, `hashmap_hash_int 4 1 = 2`),
re-inserting key 1 with value 50 overwrites the slot (lookup then returns 50)
but returns a state with `size = 2` while only one slot is occupied. -/
theorem put_overwrite_changes_len :
    hashmap_put (0 : Int) 1 ⟨4, 1, [⟨0, 0, 0⟩, ⟨0, 0, 0⟩, ⟨1, 1, 40⟩, ⟨0, 0, 0⟩]⟩ 1 50 =
      .ok MAP_OK ⟨4, 2, [⟨0, 0, 0⟩, ⟨0, 0, 0⟩, ⟨1, 1, 50⟩, ⟨0, 0, 0⟩]⟩ ∧
    hashmap_get (⟨4, 2, [⟨0, 0, 0⟩, ⟨0, 0, 0⟩, ⟨1, 1, 50⟩, ⟨0, 0, 0⟩]⟩ : HashMapMap Int) 1 =
      .found 50 ∧
    countOccupied [(⟨0, 0, 0⟩ : HashMapElement Int), ⟨0, 0, 0⟩, ⟨1, 1, 50⟩, ⟨0, 0, 0⟩] = 1 ∧
    hashmap_length (⟨4, 2, [⟨0, 0, 0⟩, ⟨0, 0, 0⟩, ⟨1, 1, 50⟩, ⟨0, 0, 0⟩]⟩ : HashMapMap Int) =
      2 := by
  decide

/-- C2: counterexample — the claim says the probe index advances wrapping
modulo capacity and every read index stays below capacity. The source computes
`curr = curr + 1 % inside.table_size`, which is `curr + (1 % table_size)` =
`curr + 1`: no wraparound. On a 4-slot table with `size = 2 < capacity` whose
slots 2 and 3 are occupied by keys 2 and 3, probing key 1 (hash index 2) walks
2, 3, then reads index 4 = capacity: out of bounds (`none` = Rust panic). -/
theorem probe_reads_out_of_bounds :
    (⟨4, 2, [⟨0, 0, 0⟩, ⟨0, 0, 0⟩, ⟨2, 1, 20⟩, ⟨3, 1, 30⟩]⟩ : HashMapMap Int).size <
      ((⟨4, 2, [⟨0, 0, 0⟩, ⟨0, 0, 0⟩, ⟨2, 1, 20⟩, ⟨3, 1, 30⟩]⟩ :
        HashMapMap Int).table_size : Int) ∧
    hashmap_hash (⟨4, 2, [⟨0, 0, 0⟩, ⟨0, 0, 0⟩, ⟨2, 1, 20⟩, ⟨3, 1, 30⟩]⟩ :
      HashMapMap Int) 1 = none := by
  decide

theorem get?_replicate_of_lt {α : Type} (a : α) : ∀ n i, i < n →
    (List.replicate n a).get? i = some a := by
  intro n
  induction n with
  | zero => intro i h; omega
  | succ n ih =>
    intro i h
    cases i with
    | zero => rfl
    | succ i =>
      rw [List.replicate_succ]
      exact ih i (by omega)

theorem rehashLoop_cons {T : Type} (putf : HashMapMap T → Int → T → PutRes T)
    (old : List (HashMapElement T)) (m : HashMapMap T) (i rem : Nat)
    (e : HashMapElement T) (m1 : HashMapMap T)
    (hget : old.get? i = some e) (hput : putf m e.key e.data = .ok MAP_OK m1) :
    rehashLoop putf old m i (rem + 1) = rehashLoop putf old m1 (i + 1) rem := by
  simp only [rehashLoop, hget, hput, eq_self_iff_true, if_true]

/-- Step of the rehash counterexample: re-inserting the occupied old slot
(key 7, hashed to slot 1 of the rebuilt table) writes into the fresh
`2 * INIT_CAP`-slot vector and bumps `size` to 1. -/
theorem rehash_cex_put1 :
    putAt (0 : Int) 1
      ⟨4, 0, List.replicate (2 * INIT_CAP) ⟨0, 0, 0⟩⟩ 7 70 =
      .ok MAP_OK ⟨4, 1, (List.replicate (2 * INIT_CAP)
        (⟨0, 0, 0⟩ : HashMapElement Int)).set 1 ⟨7, 1, 70⟩⟩ := by
  show putAt (0 : Int) (0 + 1)
      ⟨4, 0, List.replicate (2 * INIT_CAP) ⟨0, 0, 0⟩⟩ 7 70 = _
  rw [putAt]
  rw [show hashmap_hash
      (⟨4, 0, List.replicate (2 * INIT_CAP) ⟨0, 0, 0⟩⟩ : HashMapMap Int) 7 = some 1 from rfl]
  dsimp only
  rw [if_neg (by decide), if_neg (by decide)]
  rw [if_pos (show (1 : Int).toNat <
      (⟨4, 0, List.replicate (2 * INIT_CAP) ⟨0, 0, 0⟩⟩ :
        HashMapMap Int).data.length by
    show (1 : Int).toNat <
      (List.replicate (2 * INIT_CAP) (⟨0, 0, 0⟩ : HashMapElement Int)).length
    rw [List.length_replicate]
    decide)]
  rfl

/-- Step of the rehash counterexample: the rehash loop then re-inserts the
EMPTY old slot as well (key 0, default value, hashed to slot 0), bumping
`size` to 2 although the original table held a single entry. -/
theorem rehash_cex_put2 :
    putAt (0 : Int) 1
      ⟨4, 1, (List.replicate (2 * INIT_CAP)
        (⟨0, 0, 0⟩ : HashMapElement Int)).set 1 ⟨7, 1, 70⟩⟩ 0 0 =
      .ok MAP_OK ⟨4, 2, ((List.replicate (2 * INIT_CAP)
        (⟨0, 0, 0⟩ : HashMapElement Int)).set 1 ⟨7, 1, 70⟩).set 0 ⟨0, 1, 0⟩⟩ := by
  show putAt (0 : Int) (0 + 1)
      ⟨4, 1, (List.replicate (2 * INIT_CAP)
        (⟨0, 0, 0⟩ : HashMapElement Int)).set 1 ⟨7, 1, 70⟩⟩ 0 0 = _
  rw [putAt]
  rw [show hashmap_hash
      (⟨4, 1, (List.replicate (2 * INIT_CAP)
        (⟨0, 0, 0⟩ : HashMapElement Int)).set 1 ⟨7, 1, 70⟩⟩ : HashMapMap Int) 0 =
      some 0 from rfl]
  dsimp only
  rw [if_neg (by decide), if_neg (by decide)]
  rw [if_pos (show (0 : Int).toNat <
      (⟨4, 1, (List.replicate (2 * INIT_CAP)
        (⟨0, 0, 0⟩ : HashMapElement Int)).set 1 ⟨7, 1, 70⟩⟩ :
        HashMapMap Int).data.length by
    show (0 : Int).toNat <
      ((List.replicate (2 * INIT_CAP) (⟨0, 0, 0⟩ : HashMapElement Int)).set 1
        ⟨7, 1, 70⟩).length
    rw [List.length_set, List.length_replicate]
    decide)]
  rfl

/-- C3: counterexample — the claim says rehash allocates double the CURRENT
capacity and re-inserts exactly the Occupied entries. The source allocates
`2 * INIT_CAP` = 2048 slots regardless of the current capacity, and its loop
re-inserts every old slot, Empty ones included. Rehashing a capacity-2 table
with one occupied entry (key 7) returns `MAP_OK` with capacity 4 but a
2048-slot backing vector, and with `size = 2`: the Empty slot was re-inserted
as a spurious occupied key-0 entry, which a lookup of key 0 then finds. -/
theorem rehash_wrong_allocation_and_junk_reinsertion :
    hashmap_rehash (0 : Int) 1 ⟨2, 1, [⟨7, 1, 70⟩, ⟨0, 0, 0⟩]⟩ =
      .ok MAP_OK ⟨4, 2, ((List.replicate (2 * INIT_CAP)
        (⟨0, 0, 0⟩ : HashMapElement Int)).set 1 ⟨7, 1, 70⟩).set 0 ⟨0, 1, 0⟩⟩ ∧
    (((List.replicate (2 * INIT_CAP)
        (⟨0, 0, 0⟩ : HashMapElement Int)).set 1 ⟨7, 1, 70⟩).set 0 ⟨0, 1, 0⟩).length =
      2048 ∧
    hashmap_get (⟨4, 2, ((List.replicate (2 * INIT_CAP)
        (⟨0, 0, 0⟩ : HashMapElement Int)).set 1 ⟨7, 1, 70⟩).set 0 ⟨0, 1, 0⟩⟩ :
      HashMapMap Int) 0 = .found 0 := by
  refine ⟨?_, ?_, ?_⟩
  · calc hashmap_rehash (0 : Int) 1 ⟨2, 1, [⟨7, 1, 70⟩, ⟨0, 0, 0⟩]⟩
        = rehashLoop (fun m2 k2 v2 => putAt (0 : Int) 1 m2 k2 v2)
            [⟨7, 1, 70⟩, ⟨0, 0, 0⟩]
            ⟨4, 0, List.replicate (2 * INIT_CAP) ⟨0, 0, 0⟩⟩ 0 (1 + 1) := rfl
      _ = rehashLoop (fun m2 k2 v2 => putAt (0 : Int) 1 m2 k2 v2)
            [⟨7, 1, 70⟩, ⟨0, 0, 0⟩]
            ⟨4, 1, (List.replicate (2 * INIT_CAP)
              (⟨0, 0, 0⟩ : HashMapElement Int)).set 1 ⟨7, 1, 70⟩⟩ 1 (0 + 1) :=
          rehashLoop_cons _ _ _ 0 1 ⟨7, 1, 70⟩ _ rfl rehash_cex_put1
      _ = rehashLoop (fun m2 k2 v2 => putAt (0 : Int) 1 m2 k2 v2)
            [⟨7, 1, 70⟩, ⟨0, 0, 0⟩]
            ⟨4, 2, ((List.replicate (2 * INIT_CAP)
              (⟨0, 0, 0⟩ : HashMapElement Int)).set 1 ⟨7, 1, 70⟩).set 0 ⟨0, 1, 0⟩⟩
            2 0 :=
          rehashLoop_cons _ _ _ 1 0 ⟨0, 0, 0⟩ _ rfl rehash_cex_put2
      _ = .ok MAP_OK ⟨4, 2, ((List.replicate (2 * INIT_CAP)
            (⟨0, 0, 0⟩ : HashMapElement Int)).set 1 ⟨7, 1, 70⟩).set 0 ⟨0, 1, 0⟩⟩ := rfl
  · rw [List.length_set, List.length_set, List.length_replicate]
    decide
  · have hg : (((List.replicate (2 * INIT_CAP)
        (⟨0, 0, 0⟩ : HashMapElement Int)).set 1 ⟨7, 1, 70⟩).set 0 ⟨0, 1, 0⟩).get? 0 =
        some ⟨0, 1, 0⟩ := by
      apply List.get?_set_eq_of_lt
      rw [List.length_set, List.length_replicate]
      decide
    unfold hashmap_get
    dsimp only
    rw [show hashmap_hash_int 4 0 = 0 from by decide]
    rw [show toI32 0 = 0 from by decide]
    rw [show (4 : Nat) = 3 + 1 from rfl]
    rw [getLoop]
    simp only [hg]
    rfl

/-- C9: counterexample — the claim says every public operation preserves
`count = number of Occupied slots`. Starting from a valid state (`size = 1`,
one occupied slot holding key 2, `hashmap_hash_int 4 2 = 1`), the public
insert of key 2 again returns `MAP_OK` but yields `size = 2` with still
exactly one occupied slot, so the invariant does not survive the operation. -/
theorem insert_breaks_count_invariant :
    (⟨4, 1, [⟨0, 0, 0⟩, ⟨2, 1, 30⟩, ⟨0, 0, 0⟩, ⟨0, 0, 0⟩]⟩ : HashMapMap Int).size =
      (countOccupied [(⟨0, 0, 0⟩ : HashMapElement Int), ⟨2, 1, 30⟩, ⟨0, 0, 0⟩, ⟨0, 0, 0⟩] :
        Int) ∧
    hashmap_put (0 : Int) 1 ⟨4, 1, [⟨0, 0, 0⟩, ⟨2, 1, 30⟩, ⟨0, 0, 0⟩, ⟨0, 0, 0⟩]⟩ 2 31 =
      .ok MAP_OK ⟨4, 2, [⟨0, 0, 0⟩, ⟨2, 1, 31⟩, ⟨0, 0, 0⟩, ⟨0, 0, 0⟩]⟩ ∧
    countOccupied [(⟨0, 0, 0⟩ : HashMapElement Int), ⟨2, 1, 31⟩, ⟨0, 0, 0⟩, ⟨0, 0, 0⟩] = 1 ∧
    (⟨4, 2, [⟨0, 0, 0⟩, ⟨2, 1, 31⟩, ⟨0, 0, 0⟩, ⟨0, 0, 0⟩]⟩ : HashMapMap Int).size ≠
      (countOccupied [(⟨0, 0, 0⟩ : HashMapElement Int), ⟨2, 1, 31⟩, ⟨0, 0, 0⟩, ⟨0, 0, 0⟩] :
        Int) := by
  decide

end MyHashmap
